import Mathlib

/-!
# Verification of the OneTab Analyzer domain logic

A shallow embedding of `onetab-analyzer.js` in Lean 4.  JavaScript strings
are embedded as `List Char`; the domain-extraction, reference-resolution,
and interactive-session command handlers are translated function by
function from the source.  Theorems at the end settle the specification
claims about these functions.
-/

/-- JavaScript strings are modelled as lists of characters. -/
abbrev Str := List Char

/-- Convert a Lean string literal to the embedded string type. -/
def str (s : String) : Str := s.toList

/-- Whitespace test used by `String.prototype.trim` (ASCII subset). -/
def isWs (c : Char) : Bool := c = ' ' || c = '\t' || c = '\n' || c = '\r'

/-- JavaScript `s.trim()`: remove leading and trailing whitespace. -/
def trimStr (s : Str) : Str :=
  ((s.dropWhile isWs).reverse.dropWhile isWs).reverse

/-- JavaScript `s.toLowerCase()` (ASCII behaviour). -/
def lowerStr (s : Str) : Str := s.map Char.toLower

/-- JavaScript `s.endsWith(suff)`. -/
def endsWith (s suff : Str) : Bool := decide (suff <:+ s)

/-- JavaScript `s.includes(sub)`: substring containment. -/
def containsSub (s sub : Str) : Bool := decide (sub <:+: s)

/-- JavaScript `s.split(".")`: split on the dot character; the empty
string splits to `[""]`, and empty segments are kept. -/
def splitDots : Str → List Str
  | [] => [[]]
  | c :: rest =>
    match splitDots rest with
    | [] => [[]]
    | seg :: segs => if c = '.' then [] :: seg :: segs else (c :: seg) :: segs

/-- JavaScript `parts.join(".")`. -/
def joinDots : List Str → Str
  | [] => []
  | [s] => s
  | s :: rest => s ++ '.' :: joinDots rest

/-- JavaScript `xs.slice(-n)` for `n ≥ 1`: the last `min n (length xs)`
elements of `xs`. -/
def sliceLast (n : Nat) (xs : List α) : List α := xs.drop (xs.length - n)

/-- The hardcoded multi-part TLD table of `onetab-analyzer.js`
(`MULTI_PART_TLDS`, lines 9–13). -/
def MULTI_PART_TLDS : List Str :=
  [str "co.uk", str "co.nz", str "co.jp", str "co.il",
   str "com.au", str "com.br", str "org.uk",
   str "github.io", str "gitlab.io", str "vercel.app", str "netlify.app"]

/-- The suffix loop and fallback of `extractDomain` (lines 18–27),
operating on the already-lowercased hostname: the first listed TLD `t`
with hostname ending in `"." + t` yields the last
`(labels of t) + 1` labels of the hostname; otherwise the last two
labels. -/
def extractDomainOfHost (hostname : Str) : Str :=
  match MULTI_PART_TLDS.find? (fun tld => endsWith hostname ('.' :: tld)) with
  | some tld =>
    joinDots (sliceLast ((splitDots tld).length + 1) (splitDots hostname))
  | none => joinDots (sliceLast 2 (splitDots hostname))

/-- Modelled from the spec: the source calls Node's WHATWG
`new URL(urlString).hostname`, platform library code not in this
repository.  Per spec §4.1 it parses the URL, failing on malformed
input (e.g. a missing scheme), and yields the hostname: here, an
`http://`/`https://` scheme (case-insensitive) is required, the
authority runs to the first `/`, `?` or `#`, userinfo before `@` and a
`:port` are stripped, and an empty host is a parse failure. -/
def urlHostname (s : Str) : Option Str :=
  let l := lowerStr s
  let rest? : Option Str :=
    if l.take 8 = str "https://" then some (s.drop 8)
    else if l.take 7 = str "http://" then some (s.drop 7)
    else none
  match rest? with
  | none => none
  | some rest =>
    let authority := rest.takeWhile (fun c => !(c = '/' || c = '?' || c = '#'))
    let hostport :=
      if authority.contains '@' then
        ((authority.dropWhile (fun c => !(c = '@'))).drop 1)
      else authority
    let host := hostport.takeWhile (fun c => !(c = ':'))
    if host = [] then none else some host

/-- The full `extractDomain` (lines 15–31): trim, take the hostname,
lowercase it, and run the suffix logic; `none` models the `null`
returned when URL parsing throws. -/
def extractDomain (urlString : Str) : Option Str :=
  (urlHostname (trimStr urlString)).map (fun h => extractDomainOfHost (lowerStr h))

/-- Numeric value of a non-empty digit string. -/
def digitsVal (ds : Str) : Nat :=
  ds.foldl (fun acc c => acc * 10 + (c.toNat - '0'.toNat)) 0

/-- The leading run of decimal digits, as a number; `none` if there is
no leading digit. -/
def leadingNat (s : Str) : Option Nat :=
  let ds := s.takeWhile Char.isDigit
  if ds = [] then none else some (digitsVal ds)

/-- JavaScript `parseInt(s, 10)`: skip leading whitespace, accept an
optional sign, then read the maximal run of decimal digits; `none`
models `NaN` (no digit found). Trailing garbage is ignored, so
`parseInt("5abc") = 5`. -/
def parseIntJS (s : Str) : Option Int :=
  match s.dropWhile isWs with
  | '-' :: rest => (leadingNat rest).map (fun n => -(n : Int))
  | '+' :: rest => (leadingNat rest).map (fun n => (n : Int))
  | t => (leadingNat t).map (fun n => (n : Int))

/-- One parsed export line (`parseLine`'s result shape). -/
structure Entry where
  url : Str
  title : Str
  domain : Str
  raw : Str
deriving DecidableEq, Repr

/-- The integer branch of `resolveDomain` (lines 159–162): a parsed
number in `[1, length]` selects the domain at that 1-based position of
the displayed list. -/
def resolveIndex (input : Str) (sortedDomains : List (Str × List Entry)) : Option Str :=
  match parseIntJS input with
  | some num =>
    if 1 ≤ num ∧ num ≤ (sortedDomains.length : Int) then
      (sortedDomains.get? (num - 1).toNat).map (·.1)
    else none
  | none => none

/-- The name branch of `resolveDomain` (lines 164–166): the first pair
whose domain equals the lowercased input or contains it as a
substring; `match?.[0] || null` maps an empty-string domain back to
failure. -/
def resolveByName (lower : Str) (sortedDomains : List (Str × List Entry)) : Option Str :=
  match sortedDomains.find? (fun p => p.1 == lower || containsSub p.1 lower) with
  | some p => if p.1 = [] then none else some p.1
  | none => none

/-- The full `resolveDomain` (lines 158–167): the integer branch first,
then the case-insensitive name branch. -/
def resolveDomain (input : Str) (sortedDomains : List (Str × List Entry)) : Option Str :=
  match resolveIndex input sortedDomains with
  | some d => some d
  | none => resolveByName (lowerStr input) sortedDomains

/-- Descending-by-count comparison used via `(a, b) => b[1].length -
a[1].length`; a stable sort under it keeps insertion order on ties. -/
def countGe (a b : Str × List Entry) : Prop := b.2.length ≤ a.2.length

instance : DecidableRel countGe := fun _ _ => Nat.decLe _ _

/-- The view builder `getSortedDomains` (lines 178–180): the groups
with at least `threshold` entries, stably sorted by descending entry
count (JavaScript `Array.prototype.sort` is stable). -/
def getSortedDomains (groups : List (Str × List Entry)) (threshold : Int) : List (Str × List Entry) :=
  List.insertionSort countGe (groups.filter (fun p => threshold ≤ (p.2.length : Int)))

/-- The session state mutated by the command loop: the display
threshold and the insertion-ordered deletion-mark set. -/
structure SessionState where
  threshold : Int
  marked : List Str
deriving DecidableEq, Repr

/-- JavaScript `Set.prototype.add`: append if not already present. -/
def addMark (d : Str) (s : List Str) : List Str :=
  if d ∈ s then s else s ++ [d]

/-- JavaScript `Set.prototype.delete`: remove the element. -/
def removeMark (d : Str) (s : List Str) : List Str :=
  s.filter (fun x => x ≠ d)

/-- One interactive command, already split into verb and argument as
lines 191–192 do. -/
inductive Command
  | showCmd (arg : Str)
  | delete (arg : Str)
  | undo (arg : Str)
  | save (arg : Str)
  | threshold (arg : Str)
  | quit
  | other
deriving DecidableEq, Repr

/-- The observable outcome of one loop iteration; `savedFile` carries
the filename and content handed to `fs.writeFileSync`. -/
inductive StepReport
  | showedUrls (domain : Str)
  | domainNotFound
  | markedDomain (domain : Str)
  | unmarkedDomain (domain : Str)
  | notInDeletionList
  | needFilename
  | noMarks
  | cannotOverwrite
  | savedFile (fname : Str) (content : Str) (kept removed : Nat)
  | silent
deriving DecidableEq, Repr

/-- Whether a report corresponds to an actual `fs.writeFileSync` call. -/
def StepReport.isWrite : StepReport → Bool
  | .savedFile _ _ _ _ => true
  | _ => false

/-- JavaScript `lines.join("\n")`. -/
def joinLines : List Str → Str
  | [] => []
  | [s] => s
  | s :: rest => s ++ '\n' :: joinLines rest

/-- One iteration of the `runInteractive` command loop (lines 182–267):
given the immutable groups/entries/input filename and the current
state, a command yields the next state and the observable outcome. -/
def step (groups : List (Str × List Entry)) (entries : List Entry) (inputFile : Str)
    (st : SessionState) (cmd : Command) : SessionState × StepReport :=
  let sortedDomains := getSortedDomains groups st.threshold
  match cmd with
  | .showCmd arg =>
    match resolveDomain arg sortedDomains with
    | some d =>
      if (groups.find? (fun p => p.1 == d)).isSome then (st, .showedUrls d)
      else (st, .domainNotFound)
    | none => (st, .domainNotFound)
  | .delete arg =>
    match resolveDomain arg sortedDomains with
    | some d => ({ st with marked := addMark d st.marked }, .markedDomain d)
    | none => (st, .domainNotFound)
  | .undo arg =>
    let d := (resolveDomain arg sortedDomains).getD (lowerStr arg)
    if d ∈ st.marked then ({ st with marked := removeMark d st.marked }, .unmarkedDomain d)
    else (st, .notInDeletionList)
  | .save arg =>
    if arg = [] then (st, .needFilename)
    else if st.marked = [] then (st, .noMarks)
    else if arg = inputFile then (st, .cannotOverwrite)
    else
      let filtered := entries.filter (fun e => e.domain ∉ st.marked)
      (st, .savedFile arg (joinLines (filtered.map (·.raw)))
        filtered.length (entries.length - filtered.length))
  | .threshold arg =>
    match parseIntJS arg with
    | some n => if 0 < n then ({ st with threshold := n }, .silent) else (st, .silent)
    | none => (st, .silent)
  | .quit => (st, .silent)
  | .other => (st, .silent)

/-- A fixed example entry used by concrete evaluations below. -/
def exEntry (d : Str) : Entry :=
  { url := str "https://x/", title := [], domain := d, raw := d }

/-- An example grouping index: `pop.com` with five entries and
`rare.com` with one. -/
def exGroups : List (Str × List Entry) :=
  [(str "pop.com", List.replicate 5 (exEntry (str "pop.com"))),
   (str "rare.com", [exEntry (str "rare.com")])]

/-- The entry sequence corresponding to `exGroups`. -/
def exEntries : List Entry :=
  List.replicate 5 (exEntry (str "pop.com")) ++ [exEntry (str "rare.com")]

/-- A second example grouping index: `xab.com` with two entries,
`ab.com` with one, so the count-sorted displayed list puts `xab.com`
first. -/
def exGroups2 : List (Str × List Entry) :=
  [(str "xab.com", List.replicate 2 (exEntry (str "xab.com"))),
   (str "ab.com", [exEntry (str "ab.com")])]

/-- A string that denotes a positive integer in the plain sense of the
claims: an optional `+` sign followed by digits only, of positive
value. -/
def denotesPosInt (s : Str) : Bool :=
  match s with
  | '+' :: rest => rest ≠ [] && rest.all Char.isDigit && 0 < digitsVal rest
  | _ => s ≠ [] && s.all Char.isDigit && 0 < digitsVal s

-- Sanity checks mirroring the built-in test suite of the source file.
example : extractDomain (str "https://www.example.com/page") = some (str "example.com") := by decide
example : extractDomain (str "https://blog.example.com") = some (str "example.com") := by decide
example : extractDomain (str "https://www.bbc.co.uk/news") = some (str "bbc.co.uk") := by decide
example : extractDomain (str "https://user.github.io/repo") = some (str "user.github.io") := by decide
example : extractDomain (str "not-a-url") = none := by decide

-- Sanity checks for the parseInt and resolution models.
example : parseIntJS (str "12abc") = some 12 := by decide
example : parseIntJS (str "abc") = none := by decide
example : parseIntJS (str "-4") = some (-4) := by decide
example : parseIntJS (str "") = none := by decide
example : resolveDomain (str "2") [(str "a.com", []), (str "b.com", [])] = some (str "b.com") := by decide
example : resolveDomain (str "git") [(str "github.com", [])] = some (str "github.com") := by decide

/-! ## Lemmas about the string primitives -/

theorem splitDots_ne_nil (s : Str) : splitDots s ≠ [] := by
  cases s with
  | nil => simp [splitDots]
  | cons c rest =>
    unfold splitDots
    cases h : splitDots rest with
    | nil => simp
    | cons seg segs => by_cases hc : c = '.' <;> simp [hc]

theorem joinDots_splitDots (s : Str) : joinDots (splitDots s) = s := by
  induction s with
  | nil => rfl
  | cons c rest ih =>
    unfold splitDots
    cases h : splitDots rest with
    | nil => exact absurd h (splitDots_ne_nil rest)
    | cons seg segs =>
      rw [h] at ih
      by_cases hc : c = '.'
      · subst hc
        simp only [if_pos rfl]
        show joinDots ([] :: seg :: segs) = '.' :: rest
        cases segs <;> simp [joinDots] at ih ⊢ <;> simp [ih]
      · simp only [if_neg hc]
        cases segs with
        | nil =>
          simp [joinDots] at ih ⊢
          exact ih
        | cons s2 ss =>
          show (c :: seg) ++ '.' :: joinDots (s2 :: ss) = c :: rest
          have : joinDots (seg :: s2 :: ss) = rest := ih
          simp [joinDots] at this
          simp [this]

theorem two_le_length_splitDots_of_mem_dot {s : Str} (h : '.' ∈ s) :
    2 ≤ (splitDots s).length := by
  induction s with
  | nil => simp at h
  | cons c rest ih =>
    unfold splitDots
    cases hr : splitDots rest with
    | nil => exact absurd hr (splitDots_ne_nil rest)
    | cons seg segs =>
      by_cases hc : c = '.'
      · simp [if_pos hc]
      · simp only [if_neg hc, List.length_cons]
        have hmem : '.' ∈ rest := by
          cases h with
          | head => exact absurd rfl (Ne.symm hc)
          | tail _ h' => exact h'
        have := ih hmem
        rw [hr] at this
        simpa using this

theorem suffix_of_suffix_length_le {l₁ l₂ l₃ : Str}
    (h₁ : l₁ <:+ l₃) (h₂ : l₂ <:+ l₃) (hlen : l₁.length ≤ l₂.length) :
    l₁ <:+ l₂ := by
  obtain ⟨a, ha⟩ := h₁
  obtain ⟨b, hb⟩ := h₂
  have hab : a ++ l₁ = b ++ l₂ := ha.trans hb.symm
  rcases List.append_eq_append_iff.mp hab with ⟨a', _, h2⟩ | ⟨c', _, h2⟩
  · have : a'.length = 0 := by
      have := congrArg List.length h2
      simp at this
      omega
    have : a' = [] := List.length_eq_zero.mp this
    subst this
    simp at h2
    exact h2 ▸ List.suffix_refl _
  · exact ⟨c', h2.symm⟩

theorem find?_eq_of_unique {α} (p : α → Bool) (l : List α) (a : α)
    (hmem : a ∈ l) (hpa : p a = true)
    (huniq : ∀ b ∈ l, p b = true → b = a) : l.find? p = some a := by
  induction l with
  | nil => simp at hmem
  | cons x xs ih =>
    by_cases hx : p x = true
    · have hxa : x = a := huniq x (List.mem_cons_self x xs) hx
      rw [List.find?_cons_of_pos _ hx, hxa]
    · have hxa : x ≠ a := fun e => hx (e ▸ hpa)
      have h' : a ∈ xs := by
        cases hmem with
        | head => exact absurd rfl hxa
        | tail _ h' => exact h'
      rw [List.find?_cons_of_neg _ (by simpa using hx)]
      exact ih h' (fun b hb hpb => huniq b (List.mem_cons_of_mem _ hb) hpb)

/-- No dotted form of one listed TLD is a suffix of another's: the
eleven entries are pairwise structurally independent, so at most one
can match a given hostname. -/
theorem tlds_pairwise_no_suffix :
    ∀ T ∈ MULTI_PART_TLDS, ∀ S ∈ MULTI_PART_TLDS,
      T ≠ S → ¬ ('.' :: T <:+ '.' :: S) := by decide

/-! ## Domain extraction: the suffix and fallback paths -/

/-- If the (lowercased) hostname ends in `"." + S` for a listed `S`,
the table loop finds exactly `S`. -/
theorem find?_tlds_eq {h S : Str} (hS : S ∈ MULTI_PART_TLDS)
    (hsuf : ('.' :: S) <:+ h) :
    MULTI_PART_TLDS.find? (fun tld => endsWith h ('.' :: tld)) = some S := by
  apply find?_eq_of_unique _ _ _ hS
  · simpa [endsWith] using hsuf
  · intro T hT hpT
    have hsufT : ('.' :: T) <:+ h := by simpa [endsWith] using hpT
    by_contra hne
    rcases Nat.le_total ('.' :: T).length ('.' :: S).length with hle | hle
    · exact tlds_pairwise_no_suffix T hT S hS hne
        (suffix_of_suffix_length_le hsufT hsuf hle)
    · exact tlds_pairwise_no_suffix S hS T hT (Ne.symm hne)
        (suffix_of_suffix_length_le hsuf hsufT hle)

theorem extractDomainOfHost_of_suffix {h S : Str} (hS : S ∈ MULTI_PART_TLDS)
    (hsuf : ('.' :: S) <:+ h) :
    extractDomainOfHost h =
      joinDots (sliceLast ((splitDots S).length + 1) (splitDots h)) := by
  unfold extractDomainOfHost
  rw [find?_tlds_eq hS hsuf]

theorem extractDomainOfHost_of_no_suffix {h : Str}
    (hnone : ∀ S ∈ MULTI_PART_TLDS, ¬ ('.' :: S) <:+ h) :
    extractDomainOfHost h = joinDots (sliceLast 2 (splitDots h)) := by
  unfold extractDomainOfHost
  rw [List.find?_eq_none.mpr (fun S hS => by simpa [endsWith] using hnone S hS)]

/-! ## Claims C1–C3: domain extraction -/

/-- C1: the claim requires every sibling of a listed country-code
suffix to be listed, with `extractDomain "https://example.org.il/page"
= "example.org.il"`.  The code's table lists `co.il` but not `org.il`,
and the code therefore returns the bare suffix `org.il` on that input
— the defect `logs.md` documents.  This theorem records the actual
code behaviour at the failing input. -/
theorem orgIl_collapses_to_bare_suffix :
    str "co.il" ∈ MULTI_PART_TLDS ∧ str "org.il" ∉ MULTI_PART_TLDS ∧
    extractDomain (str "https://example.org.il/page") = some (str "org.il") ∧
    extractDomain (str "https://example.org.il/page") ≠ some (str "example.org.il") := by
  decide

/-- C2: for every URL whose lowercased hostname ends with `"." + S`
for a listed multi-part suffix `S`, `extractDomain` returns the last
`labelCount(S) + 1` dot-separated labels of the hostname joined by
dots — the suffix plus exactly one label to its left. -/
theorem extractDomain_listed_suffix (url h S : Str)
    (hh : urlHostname (trimStr url) = some h)
    (hS : S ∈ MULTI_PART_TLDS)
    (hsuf : ('.' :: S) <:+ lowerStr h) :
    extractDomain url =
      some (joinDots (sliceLast ((splitDots S).length + 1) (splitDots (lowerStr h)))) := by
  unfold extractDomain
  rw [hh]
  simp [extractDomainOfHost_of_suffix hS hsuf]

/-- Witness for C2 at `https://www.bbc.co.uk/news`: the hypotheses hold
and the conclusion evaluates to `bbc.co.uk`. -/
theorem extractDomain_listed_suffix_witness :
    extractDomain (str "https://www.bbc.co.uk/news") = some (str "bbc.co.uk") := by
  have h := extractDomain_listed_suffix (str "https://www.bbc.co.uk/news")
    (str "www.bbc.co.uk") (str "co.uk") (by decide) (by decide) (by decide)
  exact h.trans (by decide)

/-- C3: when no listed suffix matches the lowercased hostname,
`extractDomain` returns its last two dot-separated labels; and a
hostname with fewer than two labels is returned whole. -/
theorem extractDomain_fallback (url h : Str)
    (hh : urlHostname (trimStr url) = some h) :
    ((∀ S ∈ MULTI_PART_TLDS, ¬ ('.' :: S) <:+ lowerStr h) →
      extractDomain url = some (joinDots (sliceLast 2 (splitDots (lowerStr h))))) ∧
    ((splitDots (lowerStr h)).length < 2 → extractDomain url = some (lowerStr h)) := by
  constructor
  · intro hno
    unfold extractDomain
    rw [hh]
    simp [extractDomainOfHost_of_no_suffix hno]
  · intro hlen
    have hnodot : '.' ∉ lowerStr h := fun hd =>
      absurd (two_le_length_splitDots_of_mem_dot hd) (by omega)
    have hno : ∀ S ∈ MULTI_PART_TLDS, ¬ ('.' :: S) <:+ lowerStr h := by
      intro S _ hsuf
      exact hnodot (hsuf.mem (List.mem_cons_self _ _))
    obtain ⟨x, hx⟩ : ∃ x, splitDots (lowerStr h) = [x] := by
      cases hsp : splitDots (lowerStr h) with
      | nil => exact absurd hsp (splitDots_ne_nil _)
      | cons a l =>
        cases l with
        | nil => exact ⟨a, rfl⟩
        | cons b l' => exfalso; rw [hsp] at hlen; simp at hlen; omega
    have hxeq : x = lowerStr h := by
      have hjs := joinDots_splitDots (lowerStr h)
      rw [hx] at hjs
      simpa [joinDots] using hjs
    unfold extractDomain
    rw [hh]
    simp [extractDomainOfHost_of_no_suffix hno, hx, sliceLast, joinDots, hxeq]

/-- Witness for C3 at `https://blog.example.com` (no suffix matches,
result `example.com`) and at `http://localhost/` (single label,
returned whole). -/
theorem extractDomain_fallback_witness :
    extractDomain (str "https://blog.example.com") = some (str "example.com") ∧
    extractDomain (str "http://localhost/") = some (str "localhost") := by
  constructor
  · have h := (extractDomain_fallback (str "https://blog.example.com")
      (str "blog.example.com") (by decide)).1 (by decide)
    exact h.trans (by decide)
  · have h := (extractDomain_fallback (str "http://localhost/")
      (str "localhost") (by decide)).2 (by decide)
    exact h.trans (by decide)

/-! ## Claim C4: reference resolution by name -/

theorem find?_congr {α} {p q : α → Bool} (l : List α)
    (hpq : ∀ a ∈ l, p a = q a) : l.find? p = l.find? q := by
  induction l with
  | nil => rfl
  | cons x xs ih =>
    have hx := hpq x (List.mem_cons_self x xs)
    cases h : q x with
    | true => rw [List.find?_cons_of_pos _ (hx.trans h), List.find?_cons_of_pos _ h]
    | false =>
      rw [List.find?_cons_of_neg _ (by simp [hx.trans h]),
        List.find?_cons_of_neg _ (by simp [h])]
      exact ih (fun a ha => hpq a (List.mem_cons_of_mem _ ha))

/-- In the name branch's predicate, the equality disjunct is subsumed
by containment: `d === lower || d.includes(lower)` holds exactly when
`d.includes(lower)` does. -/
theorem name_pred_eq_containsSub (lower : Str) (p : Str × List Entry) :
    (p.1 == lower || containsSub p.1 lower) = containsSub p.1 lower := by
  cases hb : (p.1 == lower) with
  | false => simp
  | true =>
    have : p.1 = lower := eq_of_beq hb
    subst this
    simp [containsSub, List.infix_refl]

/-- C4 counterexample: with `xab.com` (two entries) sorting ahead of
`ab.com` (one entry) in the displayed list, the input `"ab.com"` is
not an index and the list contains the exact (lowercased) match
`ab.com`, yet `resolveDomain` returns the earlier substring match
`xab.com` — the single-pass `d === lower || d.includes(lower)` gives
exact matches no priority. -/
theorem resolveDomain_exact_match_loses :
    resolveIndex (str "ab.com") (getSortedDomains exGroups2 1) = none ∧
    lowerStr (str "ab.com") = str "ab.com" ∧
    str "ab.com" ∈ (getSortedDomains exGroups2 1).map (·.1) ∧
    resolveDomain (str "ab.com") (getSortedDomains exGroups2 1)
      = some (str "xab.com") ∧
    str "xab.com" ≠ str "ab.com" := by decide

/-- C4 amended: when the input does not resolve as a valid 1-based
index and every listed domain is non-empty, `resolveDomain` returns
the first domain (in the sorted list's order) containing the
lowercased input as a substring — an exact match carries no extra
priority beyond being a containment — and FAILURE when no domain
contains it. -/
theorem resolveDomain_first_containing (input : Str) (sd : List (Str × List Entry))
    (hidx : resolveIndex input sd = none)
    (hne : ∀ p ∈ sd, p.1 ≠ []) :
    resolveDomain input sd =
      (sd.find? (fun p => containsSub p.1 (lowerStr input))).map (·.1) := by
  unfold resolveDomain
  rw [hidx]
  unfold resolveByName
  rw [find?_congr sd (fun p _ => name_pred_eq_containsSub (lowerStr input) p)]
  cases hfind : sd.find? (fun p => containsSub p.1 (lowerStr input)) with
  | none => rfl
  | some p =>
    have hp : p ∈ sd := List.mem_of_find?_eq_some hfind
    simp [hne p hp]

/-- Witness for the amended C4: input `"b"` is no index, and the first
(only) domain containing it is returned. -/
theorem resolveDomain_first_containing_witness :
    resolveDomain (str "b") [(str "abc.com", [])] = some (str "abc.com") := by
  have h := resolveDomain_first_containing (str "b") [(str "abc.com", [])]
    (by decide) (by decide)
  exact h.trans (by decide)

/-! ## Resolution results live in the displayed list -/

theorem resolveIndex_mem {input : Str} {sd : List (Str × List Entry)} {d : Str}
    (h : resolveIndex input sd = some d) : d ∈ sd.map (·.1) := by
  unfold resolveIndex at h
  split at h
  · split at h
    · rename_i num hp hr
      cases hg : sd.get? (num - 1).toNat with
      | none => rw [hg] at h; exact absurd h (by simp)
      | some p =>
        rw [hg, Option.map_some'] at h
        cases h
        exact List.mem_map_of_mem _ (List.get?_mem hg)
    · exact absurd h (by simp)
  · exact absurd h (by simp)

theorem resolveByName_mem {lower : Str} {sd : List (Str × List Entry)} {d : Str}
    (h : resolveByName lower sd = some d) : d ∈ sd.map (·.1) := by
  unfold resolveByName at h
  split at h
  · rename_i p hfind
    split at h
    · exact absurd h (by simp)
    · cases h
      exact List.mem_map_of_mem _ (List.mem_of_find?_eq_some hfind)
  · exact absurd h (by simp)

theorem resolveDomain_mem {input : Str} {sd : List (Str × List Entry)} {d : Str}
    (h : resolveDomain input sd = some d) : d ∈ sd.map (·.1) := by
  unfold resolveDomain at h
  cases hidx : resolveIndex input sd with
  | some d' => rw [hidx] at h; cases h; exact resolveIndex_mem hidx
  | none => rw [hidx] at h; exact resolveByName_mem h

theorem mem_getSortedDomains {p : Str × List Entry}
    {groups : List (Str × List Entry)} {t : Int}
    (h : p ∈ getSortedDomains groups t) : p ∈ groups ∧ t ≤ (p.2.length : Int) := by
  unfold getSortedDomains at h
  have h2 := (List.perm_insertionSort countGe
    (groups.filter (fun p => t ≤ (p.2.length : Int)))).subset h
  have h3 := List.mem_filter.mp h2
  exact ⟨h3.1, by simpa using h3.2⟩

theorem resolveDomain_getSorted {groups : List (Str × List Entry)} {t : Int}
    {input d : Str}
    (h : resolveDomain input (getSortedDomains groups t) = some d) :
    ∃ es, (d, es) ∈ groups ∧ t ≤ (es.length : Int) := by
  obtain ⟨p, hp, hpd⟩ := List.mem_map.mp (resolveDomain_mem h)
  obtain ⟨hg, ht⟩ := mem_getSortedDomains hp
  cases p with
  | mk pd pe => cases hpd; exact ⟨pe, hg, ht⟩

/-! ## Claim C7: threshold scoping of reference resolution -/

/-- C7 counterexample: `rare.com` has one entry, below the threshold 3,
and is a key of the grouping index; yet `resolveDomain` on its exact
name over the displayed list fails, and both `show rare.com` and
`delete rare.com` report "Domain not found" — name-based resolution is
restricted to the threshold-filtered view, contrary to the claim. -/
theorem hidden_domain_not_targetable_by_name :
    (str "rare.com", [exEntry (str "rare.com")]) ∈ exGroups ∧
    (([exEntry (str "rare.com")].length : Int) < 3) ∧
    resolveDomain (str "rare.com") (getSortedDomains exGroups 3) = none ∧
    (step exGroups exEntries (str "tabs.txt") ⟨3, []⟩ (.delete (str "rare.com"))).2
      = .domainNotFound ∧
    (step exGroups exEntries (str "tabs.txt") ⟨3, []⟩ (.showCmd (str "rare.com"))).2
      = .domainNotFound := by decide

/-- C7 amended: resolution — by number or by name — is wholly scoped to
the threshold-filtered view: any domain `resolveDomain` returns over
the displayed list is itself displayed, i.e. is a group key whose
entry count meets the current threshold; hence a domain hidden by the
threshold can be targeted neither by number nor by name in
show/delete. -/
theorem resolved_domain_meets_threshold (groups : List (Str × List Entry))
    (t : Int) (input d : Str)
    (h : resolveDomain input (getSortedDomains groups t) = some d) :
    d ∈ (getSortedDomains groups t).map (·.1) ∧
    ∃ es, (d, es) ∈ groups ∧ t ≤ (es.length : Int) :=
  ⟨resolveDomain_mem h, resolveDomain_getSorted h⟩

/-- Witness for the amended C7: `pop` resolves to `pop.com`, which is
displayed and has five entries, at least the threshold 3. -/
theorem resolved_domain_meets_threshold_witness :
    (str "pop.com") ∈ (getSortedDomains exGroups 3).map (·.1) ∧
    ∃ es, (str "pop.com", es) ∈ exGroups ∧ (3 : Int) ≤ (es.length : Int) :=
  resolved_domain_meets_threshold exGroups 3 (str "pop") (str "pop.com") (by decide)

/-! ## State shape of the individual command handlers -/

theorem mem_addMark {d dm : Str} {s : List Str} :
    d ∈ addMark dm s ↔ d ∈ s ∨ d = dm := by
  unfold addMark
  by_cases h : dm ∈ s
  · rw [if_pos h]
    constructor
    · exact Or.inl
    · rintro (hs | rfl)
      · exact hs
      · exact h
  · rw [if_neg h]
    simp

theorem mem_of_mem_removeMark {d x : Str} {s : List Str}
    (h : d ∈ removeMark x s) : d ∈ s :=
  (List.mem_filter.mp h).1

theorem step_show_fst (groups : List (Str × List Entry)) (entries : List Entry)
    (inputFile : Str) (st : SessionState) (arg : Str) :
    (step groups entries inputFile st (.showCmd arg)).1 = st := by
  simp only [step]
  split
  · split <;> rfl
  · rfl

theorem step_delete_fst (groups : List (Str × List Entry)) (entries : List Entry)
    (inputFile : Str) (st : SessionState) (arg : Str) :
    (step groups entries inputFile st (.delete arg)).1 =
      match resolveDomain arg (getSortedDomains groups st.threshold) with
      | some dm => { st with marked := addMark dm st.marked }
      | none => st := by
  simp only [step]
  split <;> simp_all

theorem step_undo_marked_mem {groups : List (Str × List Entry)} {entries : List Entry}
    {inputFile : Str} {st : SessionState} {arg : Str} {d : Str}
    (hd : d ∈ (step groups entries inputFile st (.undo arg)).1.marked) :
    d ∈ st.marked := by
  simp only [step] at hd
  split at hd
  · exact mem_of_mem_removeMark hd
  · exact hd

theorem step_save_fst (groups : List (Str × List Entry)) (entries : List Entry)
    (inputFile : Str) (st : SessionState) (arg : Str) :
    (step groups entries inputFile st (.save arg)).1 = st := by
  simp only [step]
  by_cases h1 : arg = []
  · rw [if_pos h1]
  · rw [if_neg h1]
    by_cases h2 : st.marked = []
    · rw [if_pos h2]
    · rw [if_neg h2]
      by_cases h3 : arg = inputFile
      · rw [if_pos h3]
      · rw [if_neg h3]

theorem step_threshold_marked (groups : List (Str × List Entry)) (entries : List Entry)
    (inputFile : Str) (st : SessionState) (arg : Str) :
    (step groups entries inputFile st (.threshold arg)).1.marked = st.marked := by
  simp only [step]
  split
  · split <;> rfl
  · rfl

/-! ## Claim C10: marked domains are always group keys -/

/-- C10: one step of the interactive loop preserves the invariant that
every domain in the deletion-mark set is a key of the grouping index —
`delete` only adds domains that `resolveDomain` found in the displayed
list (which is drawn from the groups), and `undo` only removes. -/
theorem marked_domains_are_group_keys (groups : List (Str × List Entry))
    (entries : List Entry) (inputFile : Str) (st : SessionState) (cmd : Command)
    (hinv : ∀ d ∈ st.marked, d ∈ groups.map (·.1)) :
    ∀ d ∈ (step groups entries inputFile st cmd).1.marked, d ∈ groups.map (·.1) := by
  intro d hd
  cases cmd with
  | showCmd arg => exact hinv d (step_show_fst groups entries inputFile st arg ▸ hd)
  | delete arg =>
    rw [step_delete_fst] at hd
    cases hres : resolveDomain arg (getSortedDomains groups st.threshold) with
    | none => rw [hres] at hd; exact hinv d hd
    | some dm =>
      rw [hres] at hd
      rcases mem_addMark.mp hd with hs | rfl
      · exact hinv d hs
      · obtain ⟨es, hg, _⟩ := resolveDomain_getSorted hres
        exact List.mem_map.mpr ⟨(d, es), hg, rfl⟩
  | undo arg => exact hinv d (step_undo_marked_mem hd)
  | save arg => exact hinv d (step_save_fst groups entries inputFile st arg ▸ hd)
  | threshold arg =>
    exact hinv d (step_threshold_marked groups entries inputFile st arg ▸ hd)
  | quit => exact hinv d hd
  | other => exact hinv d hd

/-- Witness for C10: starting from the invariant-satisfying state with
`pop.com` marked, after a further `delete pop` the marked domain
`pop.com` is (still) a group key, by the invariant theorem applied at
these concrete inputs. -/
theorem marked_domains_are_group_keys_witness :
    str "pop.com" ∈ exGroups.map (·.1) :=
  marked_domains_are_group_keys exGroups exEntries (str "tabs.txt")
    ⟨3, [str "pop.com"]⟩ (.delete (str "pop")) (by decide)
    (str "pop.com") (by decide)

/-! ## Claims C5 and C6: the save command -/

/-- C5: the save handler has no `"def"` alias — with marks present and
a distinct input filename, `save def` hands `fs.writeFileSync` the
literal filename `def`, not the default name `cleaned.txt` that the
repository's README documents for the alias. -/
theorem save_def_writes_literal_def :
    (step exGroups exEntries (str "tabs.txt") ⟨3, [str "pop.com"]⟩
        (.save (str "def"))).2
      = .savedFile (str "def") (str "rare.com") 1 5 ∧
    str "def" ≠ str "cleaned.txt" := by decide

/-- C6: the save preconditions are checked in order — non-empty
filename, at least one mark, target distinct from the input filename —
each violation yields only an inline report; in particular a target
equal to the input filename never reaches `fs.writeFileSync`,
regardless of the marks. -/
theorem save_refusal (groups : List (Str × List Entry)) (entries : List Entry)
    (inputFile : Str) (st : SessionState) (arg : Str) :
    (arg = [] →
      (step groups entries inputFile st (.save arg)).2 = .needFilename) ∧
    (arg ≠ [] → st.marked = [] →
      (step groups entries inputFile st (.save arg)).2 = .noMarks) ∧
    (arg ≠ [] → st.marked ≠ [] → arg = inputFile →
      (step groups entries inputFile st (.save arg)).2 = .cannotOverwrite) ∧
    (arg = inputFile →
      (step groups entries inputFile st (.save arg)).2.isWrite = false) ∧
    (arg = [] ∨ st.marked = [] →
      (step groups entries inputFile st (.save arg)).2.isWrite = false) := by
  refine ⟨?_, ?_, ?_, ?_, ?_⟩ <;> simp only [step]
  · intro h1
    rw [if_pos h1]
  · intro h1 h2
    rw [if_neg h1, if_pos h2]
  · intro h1 h2 h3
    rw [if_neg h1, if_neg h2, if_pos h3]
  · intro h3
    by_cases h1 : arg = []
    · rw [if_pos h1]
      rfl
    · rw [if_neg h1]
      by_cases h2 : st.marked = []
      · rw [if_pos h2]
        rfl
      · rw [if_neg h2, if_pos h3]
        rfl
  · rintro (h1 | h2)
    · rw [if_pos h1]
      rfl
    · by_cases h1 : arg = []
      · rw [if_pos h1]
        rfl
      · rw [if_neg h1, if_pos h2]
        rfl

/-- Witness for C6: with `pop.com` marked, `save tabs.txt` against
input file `tabs.txt` is refused and nothing is written. -/
theorem save_refusal_witness :
    (step exGroups exEntries (str "tabs.txt") ⟨3, [str "pop.com"]⟩
        (.save (str "tabs.txt"))).2 = .cannotOverwrite ∧
    (step exGroups exEntries (str "tabs.txt") ⟨3, [str "pop.com"]⟩
        (.save (str "tabs.txt"))).2.isWrite = false := by
  have h := save_refusal exGroups exEntries (str "tabs.txt")
    ⟨3, [str "pop.com"]⟩ (str "tabs.txt")
  exact ⟨h.2.2.1 (by decide) (by decide) rfl, h.2.2.2.1 rfl⟩

/-! ## Claim C8: the threshold command -/

/-- C8 counterexample: the argument `5abc` does not denote a positive
integer, yet the threshold command changes the threshold from 3 to 5 —
`parseInt("5abc", 10)` parses the leading digit run and ignores the
rest. -/
theorem threshold_changed_by_non_numeral :
    denotesPosInt (str "5abc") = false ∧
    (step [] [] (str "t") ⟨3, []⟩ (.threshold (str "5abc"))).1.threshold = 5 ∧
    (5 : Int) ≠ 3 := by decide

/-- C8 amended: the threshold command updates the threshold exactly
when `parseInt(arg, 10)` yields a positive value — the argument's
leading signed digit run parses positive, trailing characters being
ignored; every other argument leaves the entire session state
unchanged. -/
theorem threshold_update_iff_parseInt_pos (groups : List (Str × List Entry))
    (entries : List Entry) (inputFile : Str) (st : SessionState) (arg : Str) :
    (parseIntJS arg = none →
      step groups entries inputFile st (.threshold arg) = (st, .silent)) ∧
    (∀ n, parseIntJS arg = some n → 0 < n →
      step groups entries inputFile st (.threshold arg)
        = ({ st with threshold := n }, .silent)) ∧
    (∀ n, parseIntJS arg = some n → n ≤ 0 →
      step groups entries inputFile st (.threshold arg) = (st, .silent)) := by
  refine ⟨?_, ?_, ?_⟩ <;> simp only [step]
  · intro h
    simp only [h]
  · intro n h hpos
    simp only [h]
    rw [if_pos hpos]
  · intro n h hneg
    simp only [h]
    rw [if_neg (by omega)]

/-- Witness for the amended C8: `abc` leaves the state unchanged while
`7` sets the threshold to 7. -/
theorem threshold_update_iff_parseInt_pos_witness :
    step ([] : List (Str × List Entry)) [] (str "t") ⟨3, []⟩
        (.threshold (str "abc")) = (⟨3, []⟩, .silent) ∧
    step ([] : List (Str × List Entry)) [] (str "t") ⟨3, []⟩
        (.threshold (str "7")) = (⟨7, []⟩, .silent) := by
  constructor
  · exact (threshold_update_iff_parseInt_pos [] [] (str "t") ⟨3, []⟩
      (str "abc")).1 (by decide)
  · exact (threshold_update_iff_parseInt_pos [] [] (str "t") ⟨3, []⟩
      (str "7")).2.1 7 (by decide) (by decide)

/-! ## Claim C9: idempotent delete, no-op undo -/

theorem addMark_idem (d : Str) (s : List Str) :
    addMark d (addMark d s) = addMark d s := by
  show (if d ∈ addMark d s then addMark d s else addMark d s ++ [d]) = addMark d s
  rw [if_pos (mem_addMark.mpr (Or.inr rfl))]

/-- C9: issuing `delete` twice with the same argument produces the same
session state as once (the second resolution sees the same displayed
list, and `Set.add` of a present element is the identity); and `undo`
on a reference whose resolved domain is unmarked reports "not in
deletion list" and leaves the state untouched — the handler is a total
function, so no crash is possible. -/
theorem delete_idempotent_undo_noop (groups : List (Str × List Entry))
    (entries : List Entry) (inputFile : Str) (st : SessionState) (arg arg2 : Str) :
    (step groups entries inputFile
        (step groups entries inputFile st (.delete arg)).1 (.delete arg)).1
      = (step groups entries inputFile st (.delete arg)).1 ∧
    ((resolveDomain arg2 (getSortedDomains groups st.threshold)).getD (lowerStr arg2)
        ∉ st.marked →
      step groups entries inputFile st (.undo arg2) = (st, .notInDeletionList)) := by
  constructor
  · cases hres : resolveDomain arg (getSortedDomains groups st.threshold) with
    | none =>
      have h1 : (step groups entries inputFile st (.delete arg)).1 = st := by
        rw [step_delete_fst, hres]
      rw [h1]
      exact h1
    | some dm =>
      have h1 : (step groups entries inputFile st (.delete arg)).1
          = { st with marked := addMark dm st.marked } := by
        rw [step_delete_fst, hres]
      rw [h1, step_delete_fst]
      rw [show ({ st with marked := addMark dm st.marked } : SessionState).threshold
        = st.threshold from rfl]
      rw [hres]
      show ({ st with marked := addMark dm (addMark dm st.marked) } : SessionState)
        = { st with marked := addMark dm st.marked }
      rw [addMark_idem]
  · intro hnm
    simp only [step]
    rw [if_neg hnm]

/-- Witness for C9: deleting `pop` twice equals once, and `undo zzz`
with nothing marked is the reported no-op. -/
theorem delete_idempotent_undo_noop_witness :
    (step exGroups exEntries (str "tabs.txt")
        (step exGroups exEntries (str "tabs.txt") ⟨3, []⟩ (.delete (str "pop"))).1
        (.delete (str "pop"))).1
      = (step exGroups exEntries (str "tabs.txt") ⟨3, []⟩ (.delete (str "pop"))).1 ∧
    step exGroups exEntries (str "tabs.txt") ⟨3, []⟩ (.undo (str "zzz"))
      = (⟨3, []⟩, .notInDeletionList) := by
  have h := delete_idempotent_undo_noop exGroups exEntries (str "tabs.txt")
    ⟨3, []⟩ (str "pop") (str "zzz")
  exact ⟨h.1, h.2 (by decide)⟩
